import Mathlib

/-!
Shallow embedding of the Allegro event queue (src/events.c).

The queue state is the pair of its two vectors: the buffered events
(front of the list = front of the vector, i.e. the next event to be
delivered) and the registered sources.  Events are the ALLEGRO_EVENT
header fields; the type-specific payload is opaque data.  Externally
visible effects of an operation (mutex lock/unlock, condition
broadcast, source hooks, _al_release_event calls, _al_cond_timedwait
calls) are recorded in a trace, in program order.  Source hooks, whose
bodies live outside events.c, are modelled as observer functions that
receive the queue state exactly as it is at the program point of the
call.
-/

namespace AllegroEvents

/-- Header of an ALLEGRO_EVENT: type tag, originating source (by
identity), timestamp, opaque payload, reference count, and the two
free-list links that _al_copy_event resets. -/
structure ALLEGRO_EVENT where
  type : Nat
  source : Nat
  timestamp : Nat
  payload : Nat
  refcount : Nat
  next : Option Nat
  next_free : Option Nat
  deriving Repr, DecidableEq

/-- The constant MAX_QUEUE_SIZE from events.c. -/
def MAX_QUEUE_SIZE : Nat := 512

/-- The ALLEGRO_EVENT_QUEUE state: the events vector (index 0 = front) and the
sources vector.  The mutex and condition variable have no state of
their own in this sequential model; their use is recorded in traces. -/
structure ALLEGRO_EVENT_QUEUE where
  events : List ALLEGRO_EVENT
  sources : List Nat
  deriving Repr, DecidableEq

/-- Externally visible actions an operation performs, in program order. -/
inductive QAction where
  | lock
  | unlock
  | broadcast
  | onRegistered (source : Nat)
  | onUnregistered (source : Nat)
  | releaseEvent (e : ALLEGRO_EVENT)
  | condTimedwait (deadline : Nat)
  deriving Repr, DecidableEq

/-- Events passed to _al_release_event in a trace, in order. -/
def releasedEvents : List QAction → List ALLEGRO_EVENT
  | [] => []
  | QAction.releaseEvent e :: rest => e :: releasedEvents rest
  | _ :: rest => releasedEvents rest

/-- Deadlines passed to _al_cond_timedwait in a trace, in order. -/
def deadlinesIn : List QAction → List Nat
  | [] => []
  | QAction.condTimedwait d :: rest => d :: deadlinesIn rest
  | _ :: rest => deadlinesIn rest

/-- Checks that every releaseEvent in the trace happens at lock depth
zero, starting from the given depth (the mutex is not recursive, so
depth is 0 or 1 in all traces here). -/
def releasesUnlocked : List QAction → Int → Bool
  | [], _ => true
  | QAction.lock :: rest, d => releasesUnlocked rest (d + 1)
  | QAction.unlock :: rest, d => releasesUnlocked rest (d - 1)
  | QAction.releaseEvent _ :: rest, d => d == 0 && releasesUnlocked rest d
  | _ :: rest, d => releasesUnlocked rest d

/-- The function al_create_event_queue: a new, empty queue (allocation failure is
out of scope of this model). -/
def al_create_event_queue : ALLEGRO_EVENT_QUEUE :=
  { events := [], sources := [] }

/-- The function al_event_queue_is_empty. -/
def al_event_queue_is_empty (q : ALLEGRO_EVENT_QUEUE) : Bool :=
  q.events.isEmpty

/-- The function _al_copy_event: value copy of the whole event, then the copy gets
refcount 0 and NULL free-list links. -/
def _al_copy_event (src : ALLEGRO_EVENT) : ALLEGRO_EVENT :=
  { src with refcount := 0, next := none, next_free := none }

/-- The helper get_next_event_if_any: return the front event, or none when the
buffer is empty; when delete is set, remove it (vector delete at 0).
The event is not released here. -/
def get_next_event_if_any (q : ALLEGRO_EVENT_QUEUE) (delete : Bool) :
    Option ALLEGRO_EVENT × ALLEGRO_EVENT_QUEUE :=
  match q.events with
  | [] => (none, q)
  | e :: rest => (some e, if delete then { q with events := rest } else q)

/-- Result of the get/peek/drop family: the Bool return value, the
contents written through the do_copy pointer (none when that pointer
is NULL or nothing was copied), the queue afterwards, and the trace. -/
structure OpResult where
  ret : Bool
  copied : Option ALLEGRO_EVENT
  queue : ALLEGRO_EVENT_QUEUE
  trace : List QAction
  deriving Repr, DecidableEq

/-- The helper get_peek_or_drop_next_event: lock, fetch (and, for do_release,
remove) the front event, unlock; if there was none return false;
otherwise copy it out if requested, release it if it was removed, and
return true. -/
def get_peek_or_drop_next_event (q : ALLEGRO_EVENT_QUEUE)
    (do_copy : Bool) (do_release : Bool) : OpResult :=
  let p := get_next_event_if_any q do_release
  match p.1 with
  | none => ⟨false, none, p.2, [QAction.lock, QAction.unlock]⟩
  | some e =>
    ⟨true, if do_copy then some (_al_copy_event e) else none, p.2,
      [QAction.lock, QAction.unlock] ++
        (if do_release then [QAction.releaseEvent e] else [])⟩

/-- The function al_get_next_event. -/
def al_get_next_event (q : ALLEGRO_EVENT_QUEUE) : OpResult :=
  get_peek_or_drop_next_event q true true

/-- The function al_peek_next_event. -/
def al_peek_next_event (q : ALLEGRO_EVENT_QUEUE) : OpResult :=
  get_peek_or_drop_next_event q true false

/-- The function al_drop_next_event (the do_copy pointer is NULL). -/
def al_drop_next_event (q : ALLEGRO_EVENT_QUEUE) : OpResult :=
  get_peek_or_drop_next_event q false true

/-- Result of _al_event_queue_push_event: the queue afterwards, the
(possibly refcount-incremented) event object, and the trace. -/
structure PushResult where
  queue : ALLEGRO_EVENT_QUEUE
  event : ALLEGRO_EVENT
  trace : List QAction
  deriving Repr, DecidableEq

/-- The function _al_event_queue_push_event: under the lock, if the buffer holds
fewer than MAX_QUEUE_SIZE events, increment the event refcount, append
it at the back and broadcast the condition; otherwise do nothing. -/
def _al_event_queue_push_event (q : ALLEGRO_EVENT_QUEUE)
    (e : ALLEGRO_EVENT) : PushResult :=
  if q.events.length < MAX_QUEUE_SIZE then
    let e' := { e with refcount := e.refcount + 1 }
    ⟨{ q with events := q.events ++ [e'] }, e',
      [QAction.lock, QAction.broadcast, QAction.unlock]⟩
  else
    ⟨q, e, [QAction.lock, QAction.unlock]⟩

/-- The function al_register_event_source: if the source is already in the sources
vector do nothing; otherwise first call the on-registration hook
(which sees the queue before the source is a member) and then append
the source to the sources vector.  The hook body lives outside
events.c; it is modelled as an observer of the queue state at the call
point, threading a state of its own. -/
def al_register_event_source {α : Type} (q : ALLEGRO_EVENT_QUEUE) (source : Nat)
    (hook : ALLEGRO_EVENT_QUEUE → Nat → α → α) (a : α) :
    ALLEGRO_EVENT_QUEUE × α × List QAction :=
  if q.sources.contains source then
    (q, a, [])
  else
    let a' := hook q source a
    ({ q with sources := q.sources ++ [source] }, a',
      [QAction.onRegistered source])

/-- The while loop of al_unregister_event_source over the events
vector: scanning from the front, each event whose source matches is
released and deleted in place (so releases happen in buffer order) and
every other event is kept, order preserved. -/
def drop_source_events : List ALLEGRO_EVENT → Nat →
    List ALLEGRO_EVENT × List QAction
  | [], _ => ([], [])
  | e :: rest, s =>
    let p := drop_source_events rest s
    if e.source == s then (p.1, QAction.releaseEvent e :: p.2)
    else (e :: p.1, p.2)

/-- The function al_unregister_event_source: its _al_vector_find_and_delete call removes the
first occurrence of the source from the sources vector and reports
whether it was there; if it was not, nothing happens.  Otherwise the
on-unregistration hook is called (seeing the queue with the source
already out of the sources vector but the buffer not yet purged), and
then every buffered event from that source is released and removed. -/
def al_unregister_event_source {α : Type} (q : ALLEGRO_EVENT_QUEUE) (source : Nat)
    (hook : ALLEGRO_EVENT_QUEUE → Nat → α → α) (a : α) :
    ALLEGRO_EVENT_QUEUE × α × List QAction :=
  if q.sources.contains source then
    let sources' := q.sources.erase source
    let a' := hook { q with sources := sources' } source a
    let p := drop_source_events q.events source
    ({ events := p.1, sources := sources' }, a',
      QAction.onUnregistered source :: p.2)
  else
    (q, a, [])

/-- The while loop of al_flush_event_queue, iterated over the buffer
tail-first (the loop removes the last element each time, so the
original buffer reversed): each iteration unlocks, releases the
removed event, and relocks. -/
def flush_loop : List ALLEGRO_EVENT → List QAction
  | [] => []
  | e :: rest =>
    QAction.unlock :: QAction.releaseEvent e :: QAction.lock :: flush_loop rest

/-- The function al_flush_event_queue: under the lock, repeatedly remove the last
buffered event, releasing each with the lock dropped around the
release call; the buffer ends empty. -/
def al_flush_event_queue (q : ALLEGRO_EVENT_QUEUE) :
    ALLEGRO_EVENT_QUEUE × List QAction :=
  ({ q with events := [] },
    QAction.lock :: (flush_loop q.events.reverse ++ [QAction.unlock]))

/-- The while loop of al_destroy_event_queue: while the sources vector
is non-empty, unregister the back source.  Each iteration removes one
element, so the initial length of the sources vector is enough fuel. -/
def destroy_unregister_loop {α : Type} (hook : ALLEGRO_EVENT_QUEUE → Nat → α → α) :
    Nat → ALLEGRO_EVENT_QUEUE → α → ALLEGRO_EVENT_QUEUE × α × List QAction
  | 0, q, a => (q, a, [])
  | fuel + 1, q, a =>
    match q.sources with
    | [] => (q, a, [])
    | s0 :: ss =>
      let s := (s0 :: ss).getLast (List.cons_ne_nil s0 ss)
      let p := al_unregister_event_source q s hook a
      let p' := destroy_unregister_loop hook fuel p.1 p.2.1
      (p'.1, p'.2.1, p.2.2 ++ p'.2.2)

/-- The function al_destroy_event_queue up to the point the memory is freed:
unregister every source still registered (which purges and releases
their buffered events).  The destructor-registry bookkeeping and the
final frees have no counterpart in this state model. -/
def al_destroy_event_queue {α : Type} (q : ALLEGRO_EVENT_QUEUE)
    (hook : ALLEGRO_EVENT_QUEUE → Nat → α → α) (a : α) :
    ALLEGRO_EVENT_QUEUE × α × List QAction :=
  destroy_unregister_loop hook q.sources.length q a

/-- The while loop of wait_on_queue_timed: while the buffer is empty
and the last _al_cond_timedwait result is not -1, wait again, always
passing the same absolute timeout.  Other threads are not modelled, so
the buffer emptiness is fixed for the whole loop; the oracle list
supplies the successive _al_cond_timedwait results, and none means the
oracle ran out while the loop would still be waiting. -/
def timed_wait_loop (is_empty : Bool) (timeout : Nat) :
    Int → List Int → Option Int × List QAction
  | result, [] =>
    if is_empty = true ∧ result ≠ -1 then (none, [])
    else (some result, [])
  | result, r :: rest =>
    if is_empty = true ∧ result ≠ -1 then
      let p := timed_wait_loop is_empty timeout r rest
      (p.1, QAction.condTimedwait timeout :: p.2)
    else (some result, [])

/-- Outcome of wait_on_queue_timed: none when the modelled schedule
ran out while still waiting; otherwise the Bool return value, the
contents copied through ret_event (none when ret_event is NULL or
nothing was copied), and the queue afterwards. -/
structure WaitResult where
  outcome : Option (Bool × Option ALLEGRO_EVENT × ALLEGRO_EVENT_QUEUE)
  trace : List QAction
  deriving Repr, DecidableEq

/-- The function wait_on_queue_timed: the absolute timeout is computed once, before
the loop, as al_current_time() + msecs (now stands for the
al_current_time() sample at call time).  After the loop, a -1 result
means timeout: return false with the queue untouched.  Otherwise, when
ret_event is wanted, remove the front event under the lock, then copy
and release it after unlocking. -/
def wait_on_queue_timed (q : ALLEGRO_EVENT_QUEUE) (want_ret_event : Bool)
    (msecs : Nat) (now : Nat) (oracle : List Int) : WaitResult :=
  let timeout := now + msecs
  let p := timed_wait_loop q.events.isEmpty timeout 0 oracle
  match p.1 with
  | none => ⟨none, QAction.lock :: p.2⟩
  | some result =>
    if result = -1 then
      ⟨some (false, none, q), QAction.lock :: p.2 ++ [QAction.unlock]⟩
    else if want_ret_event then
      let g := get_next_event_if_any q true
      match g.1 with
      | none => ⟨some (true, none, g.2), QAction.lock :: p.2 ++ [QAction.unlock]⟩
      | some e =>
        ⟨some (true, some (_al_copy_event e), g.2),
          QAction.lock :: p.2 ++ [QAction.unlock, QAction.releaseEvent e]⟩
    else
      ⟨some (true, none, q), QAction.lock :: p.2 ++ [QAction.unlock]⟩

/-- Push a list of events in order (each by _al_event_queue_push_event),
keeping the queue. -/
def pushAll (q : ALLEGRO_EVENT_QUEUE) (es : List ALLEGRO_EVENT) :
    ALLEGRO_EVENT_QUEUE :=
  es.foldl (fun q e => (_al_event_queue_push_event q e).queue) q

/-- Performs n successive al_get_next_event calls, collecting each call's Bool
return value and copied-out contents. -/
def drainN : ALLEGRO_EVENT_QUEUE → Nat →
    List (Bool × Option ALLEGRO_EVENT) × ALLEGRO_EVENT_QUEUE
  | q, 0 => ([], q)
  | q, n + 1 =>
    let r := al_get_next_event q
    let p := drainN r.queue n
    ((r.ret, r.copied) :: p.1, p.2)

/-- The event as a successful push stores it: refcount incremented. -/
def incRefcount (e : ALLEGRO_EVENT) : ALLEGRO_EVENT :=
  { e with refcount := e.refcount + 1 }

/-! Helper lemmas. -/

theorem copy_incRefcount (e : ALLEGRO_EVENT) :
    _al_copy_event (incRefcount e) = _al_copy_event e := rfl

theorem push_below_capacity (q : ALLEGRO_EVENT_QUEUE) (e : ALLEGRO_EVENT)
    (h : q.events.length < MAX_QUEUE_SIZE) :
    _al_event_queue_push_event q e =
      ⟨{ q with events := q.events ++ [incRefcount e] }, incRefcount e,
        [QAction.lock, QAction.broadcast, QAction.unlock]⟩ := by
  simp [_al_event_queue_push_event, h, incRefcount]

theorem push_at_capacity (q : ALLEGRO_EVENT_QUEUE) (e : ALLEGRO_EVENT)
    (h : ¬ q.events.length < MAX_QUEUE_SIZE) :
    _al_event_queue_push_event q e =
      ⟨q, e, [QAction.lock, QAction.unlock]⟩ := by
  simp [_al_event_queue_push_event, h]

theorem pushAll_append (q : ALLEGRO_EVENT_QUEUE) (l1 l2 : List ALLEGRO_EVENT) :
    pushAll q (l1 ++ l2) = pushAll (pushAll q l1) l2 := by
  simp [pushAll, List.foldl_append]

theorem pushAll_spec (es : List ALLEGRO_EVENT) (q : ALLEGRO_EVENT_QUEUE)
    (h : q.events.length + es.length ≤ MAX_QUEUE_SIZE) :
    pushAll q es =
      { q with events := q.events ++ es.map incRefcount } := by
  induction es generalizing q with
  | nil => simp [pushAll]
  | cons e rest ih =>
    have hlt : q.events.length < MAX_QUEUE_SIZE := by
      simp at h; omega
    have hstep : pushAll q (e :: rest) =
        pushAll { q with events := q.events ++ [incRefcount e] } rest := by
      simp [pushAll, push_below_capacity q e hlt]
    rw [hstep, ih]
    · simp
    · simp at h ⊢; omega

theorem get_next_event_nil (q : ALLEGRO_EVENT_QUEUE) (h : q.events = [])
    (c r : Bool) :
    get_peek_or_drop_next_event q c r =
      ⟨false, none, q, [QAction.lock, QAction.unlock]⟩ := by
  simp [get_peek_or_drop_next_event, get_next_event_if_any, h]

theorem get_next_event_cons (q : ALLEGRO_EVENT_QUEUE) (e : ALLEGRO_EVENT)
    (rest : List ALLEGRO_EVENT) (h : q.events = e :: rest) :
    al_get_next_event q =
      ⟨true, some (_al_copy_event e), { q with events := rest },
        [QAction.lock, QAction.unlock, QAction.releaseEvent e]⟩ := by
  simp [al_get_next_event, get_peek_or_drop_next_event, get_next_event_if_any, h]

theorem peek_next_event_cons (q : ALLEGRO_EVENT_QUEUE) (e : ALLEGRO_EVENT)
    (rest : List ALLEGRO_EVENT) (h : q.events = e :: rest) :
    al_peek_next_event q =
      ⟨true, some (_al_copy_event e), q, [QAction.lock, QAction.unlock]⟩ := by
  simp [al_peek_next_event, get_peek_or_drop_next_event, get_next_event_if_any, h]

theorem drainN_spec (n : Nat) (q : ALLEGRO_EVENT_QUEUE)
    (h : n ≤ q.events.length) :
    drainN q n =
      ((q.events.take n).map (fun e => (true, some (_al_copy_event e))),
        { q with events := q.events.drop n }) := by
  induction n generalizing q with
  | zero => simp [drainN]
  | succ n ih =>
    match hq : q.events with
    | [] => simp [hq] at h
    | e :: rest =>
      have hr : rest.length ≥ n := by
        rw [hq] at h; simp at h; omega
      have := ih { q with events := rest } (by simpa using hr)
      simp [drainN, get_next_event_cons q e rest hq, this, hq]

theorem drop_source_events_spec (es : List ALLEGRO_EVENT) (s : Nat) :
    drop_source_events es s =
      (es.filter (fun e => !(e.source == s)),
       (es.filter (fun e => e.source == s)).map QAction.releaseEvent) := by
  induction es with
  | nil => rfl
  | cons e rest ih =>
    by_cases h : e.source = s <;>
      simp [drop_source_events, List.filter_cons, h, ih]

theorem releasedEvents_append (t1 t2 : List QAction) :
    releasedEvents (t1 ++ t2) = releasedEvents t1 ++ releasedEvents t2 := by
  induction t1 with
  | nil => rfl
  | cons a rest ih => cases a <;> simp [releasedEvents, ih]

theorem releasedEvents_map_release (l : List ALLEGRO_EVENT) :
    releasedEvents (l.map QAction.releaseEvent) = l := by
  induction l with
  | nil => rfl
  | cons e rest ih => simp [releasedEvents, ih]

theorem releasedEvents_flush_loop (l : List ALLEGRO_EVENT) :
    releasedEvents (flush_loop l) = l := by
  induction l with
  | nil => rfl
  | cons e rest ih => simp [flush_loop, releasedEvents, ih]

theorem releasesUnlocked_flush_loop (l : List ALLEGRO_EVENT) :
    releasesUnlocked (flush_loop l ++ [QAction.unlock]) 1 = true := by
  induction l with
  | nil => simp [flush_loop, releasesUnlocked]
  | cons e rest ih => simpa [flush_loop, releasesUnlocked] using ih

theorem deadlinesIn_timed_wait_loop (b : Bool) (t : Nat) (o : List Int)
    (r : Int) :
    ∀ d ∈ deadlinesIn (timed_wait_loop b t r o).2, d = t := by
  induction o generalizing r with
  | nil =>
    by_cases h : b = true ∧ r ≠ -1 <;> simp [timed_wait_loop, h, deadlinesIn]
  | cons x rest ih =>
    by_cases h : b = true ∧ r ≠ -1
    · simpa [timed_wait_loop, h, deadlinesIn] using ih x
    · simp [timed_wait_loop, h, deadlinesIn]

theorem unregister_events_length_le {α : Type} (q : ALLEGRO_EVENT_QUEUE)
    (s : Nat) (hook : ALLEGRO_EVENT_QUEUE → Nat → α → α) (a : α) :
    (al_unregister_event_source q s hook a).1.events.length ≤
      q.events.length := by
  by_cases h : s ∈ q.sources
  · simp [al_unregister_event_source, h, drop_source_events_spec]
    exact List.length_filter_le _ _
  · simp [al_unregister_event_source, h]

theorem destroy_loop_events_length_le {α : Type} (fuel : Nat)
    (q : ALLEGRO_EVENT_QUEUE) (hook : ALLEGRO_EVENT_QUEUE → Nat → α → α)
    (a : α) :
    (destroy_unregister_loop hook fuel q a).1.events.length ≤
      q.events.length := by
  induction fuel generalizing q a with
  | zero => simp [destroy_unregister_loop]
  | succ n ih =>
    match hs : q.sources with
    | [] => simp [destroy_unregister_loop, hs]
    | s0 :: ss =>
      have h1 := unregister_events_length_le q ((s0 :: ss).getLast
        (List.cons_ne_nil s0 ss)) hook a
      have h2 := ih (al_unregister_event_source q ((s0 :: ss).getLast
        (List.cons_ne_nil s0 ss)) hook a).1
        (al_unregister_event_source q ((s0 :: ss).getLast
          (List.cons_ne_nil s0 ss)) hook a).2.1
      simp only [destroy_unregister_loop, hs]
      exact le_trans h2 h1

theorem releasedEvents_timed_wait_loop (b : Bool) (t : Nat) (o : List Int)
    (r : Int) :
    releasedEvents (timed_wait_loop b t r o).2 = [] := by
  induction o generalizing r with
  | nil =>
    by_cases h : b = true ∧ r ≠ -1 <;>
      simp [timed_wait_loop, h, releasedEvents]
  | cons x rest ih =>
    by_cases h : b = true ∧ r ≠ -1
    · simpa [timed_wait_loop, h, releasedEvents] using ih x
    · simp [timed_wait_loop, h, releasedEvents]

theorem deadlinesIn_append (t1 t2 : List QAction) :
    deadlinesIn (t1 ++ t2) = deadlinesIn t1 ++ deadlinesIn t2 := by
  induction t1 with
  | nil => rfl
  | cons a rest ih => cases a <;> simp [deadlinesIn, ih]

/-! Sample events used by the concrete checks.  Sources 1 and 2;
distinct type tags, timestamps and payloads; refcount 0 and NULL links
as a source hands a fresh event to the queues. -/

def evA : ALLEGRO_EVENT := ⟨10, 1, 0, 100, 0, none, none⟩

def evB : ALLEGRO_EVENT := ⟨11, 1, 1, 101, 0, none, none⟩

def evC : ALLEGRO_EVENT := ⟨12, 2, 2, 102, 0, none, none⟩

def evD : ALLEGRO_EVENT := ⟨13, 2, 3, 103, 0, none, none⟩

def evE : ALLEGRO_EVENT := ⟨14, 1, 4, 104, 0, none, none⟩

/-! Claim theorems. -/

/-- Claim C1: for every sequence of events pushed to a single queue
with an empty buffer and no intervening pops, with the sequence length
within the capacity, that many successive al_get_next_event calls
return true each time with exactly the contents of the pushed events,
in push order. -/
theorem fifo_push_then_drain (q : ALLEGRO_EVENT_QUEUE)
    (es : List ALLEGRO_EVENT) (hq : q.events = [])
    (h : es.length ≤ MAX_QUEUE_SIZE) :
    (drainN (pushAll q es) es.length).1 =
      es.map (fun e => (true, some (_al_copy_event e))) := by
  have hp := pushAll_spec es q (by rw [hq]; simpa using h)
  rw [hp]
  have hd := drainN_spec es.length { q with events := q.events ++ es.map incRefcount }
    (by simp [hq])
  rw [hd]
  have hlen : es.length = (es.map incRefcount).length :=
    (List.length_map es incRefcount).symm
  rw [hq]
  simp only [List.nil_append]
  rw [hlen, List.take_length, List.map_map]
  exact List.map_congr_left fun e _ => by
    simp [Function.comp, copy_incRefcount]

/-- Concrete check for fifo_push_then_drain: three events through a
fresh queue come back in push order with their contents. -/
theorem fifo_push_then_drain_check :
    (al_create_event_queue.events = [] ∧
      ([evA, evB, evC] : List ALLEGRO_EVENT).length ≤ MAX_QUEUE_SIZE) ∧
    (drainN (pushAll al_create_event_queue [evA, evB, evC])
        ([evA, evB, evC] : List ALLEGRO_EVENT).length).1 =
      [evA, evB, evC].map (fun e => (true, some (_al_copy_event e))) :=
  ⟨⟨rfl, by decide⟩,
    fifo_push_then_drain al_create_event_queue [evA, evB, evC] rfl (by decide)⟩

/-- Claim C6: on an empty queue, al_get_next_event, al_peek_next_event
and al_drop_next_event return false, copy nothing, and leave the queue
(buffer and sources) unchanged, with no release; on a non-empty queue,
al_get_next_event removes exactly the head, copies its contents to the
caller and returns true. -/
theorem get_peek_drop_empty_and_nonempty (q : ALLEGRO_EVENT_QUEUE) :
    match q.events with
    | [] =>
        al_get_next_event q = ⟨false, none, q, [QAction.lock, QAction.unlock]⟩ ∧
        al_peek_next_event q = ⟨false, none, q, [QAction.lock, QAction.unlock]⟩ ∧
        al_drop_next_event q = ⟨false, none, q, [QAction.lock, QAction.unlock]⟩
    | e :: rest =>
        al_get_next_event q =
          ⟨true, some (_al_copy_event e), { q with events := rest },
            [QAction.lock, QAction.unlock, QAction.releaseEvent e]⟩ := by
  cases hq : q.events with
  | nil =>
    exact ⟨get_next_event_nil q hq true true, get_next_event_nil q hq true false,
      get_next_event_nil q hq false true⟩
  | cons e rest =>
    exact get_next_event_cons q e rest hq

/-- Claim C7: al_peek_next_event never modifies the queue, releases
nothing, leaves al_event_queue_is_empty unaffected, and a second peek
with no intervening mutation returns the very same result. -/
theorem peek_idempotent_and_pure (q : ALLEGRO_EVENT_QUEUE) :
    (al_peek_next_event q).queue = q ∧
    al_peek_next_event ((al_peek_next_event q).queue) = al_peek_next_event q ∧
    releasedEvents (al_peek_next_event q).trace = [] ∧
    al_event_queue_is_empty ((al_peek_next_event q).queue) =
      al_event_queue_is_empty q := by
  have hqq : (al_peek_next_event q).queue = q := by
    cases hq : q.events <;>
      simp [al_peek_next_event, get_peek_or_drop_next_event,
        get_next_event_if_any, hq]
  refine ⟨hqq, by rw [hqq], ?_, by rw [hqq]⟩
  cases hq : q.events <;>
    simp [al_peek_next_event, get_peek_or_drop_next_event,
      get_next_event_if_any, hq, releasedEvents]

/-- Claim C9: al_flush_event_queue leaves the buffer empty (so
al_event_queue_is_empty returns true), releases each removed record
exactly once (tail-first, so in reverse buffer order), and every
release happens with the queue lock not held. -/
theorem flush_empties_and_releases_unlocked (q : ALLEGRO_EVENT_QUEUE) :
    al_event_queue_is_empty (al_flush_event_queue q).1 = true ∧
    releasedEvents (al_flush_event_queue q).2 = q.events.reverse ∧
    releasesUnlocked (al_flush_event_queue q).2 0 = true := by
  refine ⟨rfl, ?_, ?_⟩
  · simp [al_flush_event_queue, releasedEvents, releasedEvents_append,
      releasedEvents_flush_loop]
  · have := releasesUnlocked_flush_loop q.events.reverse
    simpa [al_flush_event_queue, releasesUnlocked] using this

/-- Claim C10: push, get, peek, drop and flush never change the
registered-sources vector. -/
theorem consume_ops_preserve_sources (q : ALLEGRO_EVENT_QUEUE)
    (e : ALLEGRO_EVENT) :
    (_al_event_queue_push_event q e).queue.sources = q.sources ∧
    (al_get_next_event q).queue.sources = q.sources ∧
    (al_peek_next_event q).queue.sources = q.sources ∧
    (al_drop_next_event q).queue.sources = q.sources ∧
    (al_flush_event_queue q).1.sources = q.sources := by
  refine ⟨?_, ?_, ?_, ?_, rfl⟩
  · by_cases h : q.events.length < MAX_QUEUE_SIZE <;>
      simp [_al_event_queue_push_event, h]
  · cases hq : q.events <;>
      simp [al_get_next_event, get_peek_or_drop_next_event,
        get_next_event_if_any, hq]
  · cases hq : q.events <;>
      simp [al_peek_next_event, get_peek_or_drop_next_event,
        get_next_event_if_any, hq]
  · cases hq : q.events <;>
      simp [al_drop_next_event, get_peek_or_drop_next_event,
        get_next_event_if_any, hq]

theorem pushAll_at_capacity (q : ALLEGRO_EVENT_QUEUE) (l : List ALLEGRO_EVENT)
    (h : ¬ q.events.length < MAX_QUEUE_SIZE) :
    pushAll q l = q := by
  induction l with
  | nil => rfl
  | cons e rest ih =>
    have hstep : pushAll q (e :: rest) = pushAll q rest := by
      simp [pushAll, push_at_capacity q e h]
    rw [hstep]
    exact ih

theorem take_length_map_incRefcount (l : List ALLEGRO_EVENT) :
    (l.map incRefcount).take l.length = l.map incRefcount := by
  have h : l.length = (l.map incRefcount).length :=
    (List.length_map l incRefcount).symm
  rw [h, List.take_length]

theorem drop_length_map_incRefcount (l : List ALLEGRO_EVENT) :
    (l.map incRefcount).drop l.length = [] := by
  have h : l.length = (l.map incRefcount).length :=
    (List.length_map l incRefcount).symm
  rw [h, List.drop_length]

theorem map_copy_incRefcount (l : List ALLEGRO_EVENT) :
    (l.map incRefcount).map (fun e => (true, some (_al_copy_event e))) =
      l.map (fun e => (true, some (_al_copy_event e))) := by
  rw [List.map_map]
  exact List.map_congr_left fun e _ => by simp [Function.comp, copy_incRefcount]

/-- Claim C5: registering an already-registered source does nothing at
all; otherwise the on-registration hook runs exactly once and observes
the queue state from strictly before the source is added (so its
membership set does not yet contain the source), the source is then
appended, it ends up exactly once in the sources vector, and the
buffer is untouched. -/
theorem register_hook_before_membership {α : Type} (q : ALLEGRO_EVENT_QUEUE)
    (s : Nat) (hook : ALLEGRO_EVENT_QUEUE → Nat → α → α) (a : α) :
    if s ∈ q.sources then
      al_register_event_source q s hook a = (q, a, [])
    else
      (al_register_event_source q s hook a).1.sources = q.sources ++ [s] ∧
      (al_register_event_source q s hook a).1.events = q.events ∧
      (al_register_event_source q s hook a).2.1 = hook q s a ∧
      (al_register_event_source q s hook a).2.2 = [QAction.onRegistered s] ∧
      (al_register_event_source q s hook a).1.sources.count s = 1 := by
  by_cases hs : s ∈ q.sources
  · simp [al_register_event_source, hs]
  · simp [al_register_event_source, hs, List.count_append,
      List.count_eq_zero, List.count_singleton]

/-- Claim C4: unregistering a non-member changes nothing; unregistering
a member removes it from the sources vector, invokes the
on-unregistration hook, releases exactly the buffered events of that
source (each once, in buffer order) and keeps all other events in
their relative order.  In particular, after pushing three events of
source 1 and two of source 2 interleaved, unregistering source 1
leaves exactly the two source-2 events, in order. -/
theorem unregister_purges_source_events {α : Type} (q : ALLEGRO_EVENT_QUEUE)
    (s : Nat) (hook : ALLEGRO_EVENT_QUEUE → Nat → α → α) (a : α) :
    (if s ∈ q.sources then
      (al_unregister_event_source q s hook a).1.sources = q.sources.erase s ∧
      (al_unregister_event_source q s hook a).1.events =
        q.events.filter (fun e => !(e.source == s)) ∧
      (al_unregister_event_source q s hook a).2.1 =
        hook { q with sources := q.sources.erase s } s a ∧
      releasedEvents (al_unregister_event_source q s hook a).2.2 =
        q.events.filter (fun e => e.source == s) ∧
      ((al_unregister_event_source q s hook a).2.2).head? =
        some (QAction.onUnregistered s)
    else
      al_unregister_event_source q s hook a = (q, a, [])) ∧
    (al_unregister_event_source
        (pushAll { events := [], sources := [1, 2] } [evA, evC, evB, evE, evD])
        1 hook a).1.events = [incRefcount evC, incRefcount evD] := by
  constructor
  · by_cases hs : s ∈ q.sources
    · simp [al_unregister_event_source, hs, drop_source_events_spec,
        releasedEvents, releasedEvents_map_release]
    · simp [al_unregister_event_source, hs]
  · have hmem : (1 : Nat) ∈ (pushAll { events := [], sources := [1, 2] }
        [evA, evC, evB, evE, evD]).sources := by decide
    simp [al_unregister_event_source, hmem, drop_source_events_spec]
    decide

/-- Claim C2: a push onto a queue whose buffer already holds
MAX_QUEUE_SIZE events returns with the queue and the event (in
particular its refcount) exactly as they were, signalling nothing;
pushing MAX_QUEUE_SIZE + 1 events into a fresh queue buffers exactly
the first MAX_QUEUE_SIZE of them, and draining returns exactly those
and empties the queue, so the overflowing newest event is the one
dropped and no buffered event is evicted. -/
theorem push_at_capacity_drops_newest (q : ALLEGRO_EVENT_QUEUE)
    (e : ALLEGRO_EVENT) (es : List ALLEGRO_EVENT)
    (h1 : q.events.length = MAX_QUEUE_SIZE)
    (h2 : es.length = MAX_QUEUE_SIZE + 1) :
    _al_event_queue_push_event q e = ⟨q, e, [QAction.lock, QAction.unlock]⟩ ∧
    (pushAll al_create_event_queue es).events =
      (es.take MAX_QUEUE_SIZE).map incRefcount ∧
    (drainN (pushAll al_create_event_queue es) MAX_QUEUE_SIZE).1 =
      (es.take MAX_QUEUE_SIZE).map (fun x => (true, some (_al_copy_event x))) ∧
    (drainN (pushAll al_create_event_queue es) MAX_QUEUE_SIZE).2.events = [] := by
  have htake : (es.take MAX_QUEUE_SIZE).length = MAX_QUEUE_SIZE := by
    simp [h2]
  have hfirst : pushAll al_create_event_queue (es.take MAX_QUEUE_SIZE) =
      { events := (es.take MAX_QUEUE_SIZE).map incRefcount, sources := [] } := by
    have := pushAll_spec (es.take MAX_QUEUE_SIZE) al_create_event_queue
      (by simp [al_create_event_queue, htake])
    simpa [al_create_event_queue] using this
  have hfull : pushAll al_create_event_queue es =
      { events := (es.take MAX_QUEUE_SIZE).map incRefcount, sources := [] } := by
    conv_lhs => rw [← List.take_append_drop MAX_QUEUE_SIZE es]
    rw [pushAll_append, hfirst]
    apply pushAll_at_capacity
    simp
    omega
  have hdrain := drainN_spec MAX_QUEUE_SIZE
    { events := (es.take MAX_QUEUE_SIZE).map incRefcount,
      sources := ([] : List Nat) } (by simp; omega)
  refine ⟨push_at_capacity q e (by omega), by rw [hfull], ?_, ?_⟩
  · rw [hfull, hdrain]
    generalize hL : es.take MAX_QUEUE_SIZE = L at htake ⊢
    rw [← htake, take_length_map_incRefcount, map_copy_incRefcount]
  · rw [hfull, hdrain]
    generalize hL : es.take MAX_QUEUE_SIZE = L at htake ⊢
    rw [← htake, drop_length_map_incRefcount]

/-- Concrete check for push_at_capacity_drops_newest: a queue of 512
buffered events drops a further push unchanged, and 513 pushes into a
fresh queue keep and deliver exactly the first 512. -/
theorem push_at_capacity_drops_newest_check :
    ((⟨List.replicate MAX_QUEUE_SIZE evA, []⟩ : ALLEGRO_EVENT_QUEUE).events.length =
        MAX_QUEUE_SIZE ∧
      (List.replicate (MAX_QUEUE_SIZE + 1) evB).length = MAX_QUEUE_SIZE + 1) ∧
    (_al_event_queue_push_event ⟨List.replicate MAX_QUEUE_SIZE evA, []⟩ evC =
        ⟨⟨List.replicate MAX_QUEUE_SIZE evA, []⟩, evC,
          [QAction.lock, QAction.unlock]⟩ ∧
      (pushAll al_create_event_queue
          (List.replicate (MAX_QUEUE_SIZE + 1) evB)).events =
        ((List.replicate (MAX_QUEUE_SIZE + 1) evB).take MAX_QUEUE_SIZE).map
          incRefcount ∧
      (drainN (pushAll al_create_event_queue
          (List.replicate (MAX_QUEUE_SIZE + 1) evB)) MAX_QUEUE_SIZE).1 =
        ((List.replicate (MAX_QUEUE_SIZE + 1) evB).take MAX_QUEUE_SIZE).map
          (fun x => (true, some (_al_copy_event x))) ∧
      (drainN (pushAll al_create_event_queue
          (List.replicate (MAX_QUEUE_SIZE + 1) evB)) MAX_QUEUE_SIZE).2.events =
        []) :=
  ⟨⟨by simp, by simp⟩,
    push_at_capacity_drops_newest ⟨List.replicate MAX_QUEUE_SIZE evA, []⟩ evC
      (List.replicate (MAX_QUEUE_SIZE + 1) evB) (by simp) (by simp)⟩

/-- Claim C8: the buffer-size bound 0 ≤ length ≤ MAX_QUEUE_SIZE holds
for a fresh queue and is preserved by push, get, peek, drop, flush,
register, unregister and destroy (the lower bound is a natural-number
triviality, stated once for the fresh queue). -/
theorem buffer_length_bound_preserved {α : Type} (q : ALLEGRO_EVENT_QUEUE)
    (e : ALLEGRO_EVENT) (s : Nat) (hook : ALLEGRO_EVENT_QUEUE → Nat → α → α)
    (a : α) (h : q.events.length ≤ MAX_QUEUE_SIZE) :
    (0 ≤ al_create_event_queue.events.length ∧
      al_create_event_queue.events.length ≤ MAX_QUEUE_SIZE) ∧
    (_al_event_queue_push_event q e).queue.events.length ≤ MAX_QUEUE_SIZE ∧
    (al_get_next_event q).queue.events.length ≤ MAX_QUEUE_SIZE ∧
    (al_peek_next_event q).queue.events.length ≤ MAX_QUEUE_SIZE ∧
    (al_drop_next_event q).queue.events.length ≤ MAX_QUEUE_SIZE ∧
    (al_flush_event_queue q).1.events.length ≤ MAX_QUEUE_SIZE ∧
    (al_register_event_source q s hook a).1.events.length ≤ MAX_QUEUE_SIZE ∧
    (al_unregister_event_source q s hook a).1.events.length ≤ MAX_QUEUE_SIZE ∧
    (al_destroy_event_queue q hook a).1.events.length ≤ MAX_QUEUE_SIZE := by
  refine ⟨⟨Nat.zero_le _, by simp [al_create_event_queue]⟩,
    ?_, ?_, ?_, ?_, ?_, ?_, ?_, ?_⟩
  · by_cases hlt : q.events.length < MAX_QUEUE_SIZE
    · rw [push_below_capacity q e hlt]
      show (q.events ++ [incRefcount e]).length ≤ MAX_QUEUE_SIZE
      simp
      omega
    · rw [push_at_capacity q e hlt]
      exact h
  · cases hq : q.events with
    | nil =>
      have := get_next_event_nil q hq true true
      simp only [al_get_next_event]
      rw [this]
      exact h
    | cons x rest =>
      rw [get_next_event_cons q x rest hq]
      show rest.length ≤ MAX_QUEUE_SIZE
      have hlen : q.events.length = rest.length + 1 := by rw [hq]; rfl
      omega
  · have hqq : (al_peek_next_event q).queue = q := by
      cases hq : q.events <;>
        simp [al_peek_next_event, get_peek_or_drop_next_event,
          get_next_event_if_any, hq]
    rw [hqq]
    exact h
  · cases hq : q.events with
    | nil =>
      have := get_next_event_nil q hq false true
      simp only [al_drop_next_event]
      rw [this]
      exact h
    | cons x rest =>
      have hlen : q.events.length = rest.length + 1 := by rw [hq]; rfl
      simp only [al_drop_next_event]
      simp [get_peek_or_drop_next_event, get_next_event_if_any, hq]
      omega
  · show (0 : Nat) ≤ MAX_QUEUE_SIZE
    exact Nat.zero_le _
  · by_cases hs : s ∈ q.sources <;>
      simp [al_register_event_source, hs] <;> exact h
  · exact le_trans (unregister_events_length_le q s hook a) h
  · exact le_trans (destroy_loop_events_length_le q.sources.length q hook a) h

/-- Concrete check for buffer_length_bound_preserved at a one-event,
one-source queue with a counting hook. -/
theorem buffer_length_bound_preserved_check :
    (⟨[evA], [1]⟩ : ALLEGRO_EVENT_QUEUE).events.length ≤ MAX_QUEUE_SIZE ∧
    ((0 ≤ al_create_event_queue.events.length ∧
        al_create_event_queue.events.length ≤ MAX_QUEUE_SIZE) ∧
      (_al_event_queue_push_event ⟨[evA], [1]⟩ evB).queue.events.length ≤
        MAX_QUEUE_SIZE ∧
      (al_get_next_event ⟨[evA], [1]⟩).queue.events.length ≤ MAX_QUEUE_SIZE ∧
      (al_peek_next_event ⟨[evA], [1]⟩).queue.events.length ≤ MAX_QUEUE_SIZE ∧
      (al_drop_next_event ⟨[evA], [1]⟩).queue.events.length ≤ MAX_QUEUE_SIZE ∧
      (al_flush_event_queue ⟨[evA], [1]⟩).1.events.length ≤ MAX_QUEUE_SIZE ∧
      (al_register_event_source ⟨[evA], [1]⟩ 1 (fun _ _ n => n + 1)
          (0 : Nat)).1.events.length ≤ MAX_QUEUE_SIZE ∧
      (al_unregister_event_source ⟨[evA], [1]⟩ 1 (fun _ _ n => n + 1)
          (0 : Nat)).1.events.length ≤ MAX_QUEUE_SIZE ∧
      (al_destroy_event_queue ⟨[evA], [1]⟩ (fun _ _ n => n + 1)
          (0 : Nat)).1.events.length ≤ MAX_QUEUE_SIZE) :=
  ⟨by decide,
    buffer_length_bound_preserved ⟨[evA], [1]⟩ evB 1 (fun _ _ n => n + 1)
      (0 : Nat) (by decide)⟩

theorem wait_deadlines_all (q : ALLEGRO_EVENT_QUEUE) (w : Bool)
    (msecs now : Nat) (oracle : List Int) :
    (deadlinesIn (wait_on_queue_timed q w msecs now oracle).trace).all
      (fun d => d == now + msecs) = true := by
  have hd := deadlinesIn_timed_wait_loop q.events.isEmpty (now + msecs) oracle 0
  rcases hp : (timed_wait_loop q.events.isEmpty (now + msecs) 0 oracle).1
    with _ | result
  · have hw : wait_on_queue_timed q w msecs now oracle =
        ⟨none, QAction.lock ::
          (timed_wait_loop q.events.isEmpty (now + msecs) 0 oracle).2⟩ := by
      simp [wait_on_queue_timed, hp]
    rw [hw]
    simp [deadlinesIn, List.all_eq_true]
    exact hd
  · by_cases hres : result = -1
    · have hw : wait_on_queue_timed q w msecs now oracle =
          ⟨some (false, none, q), QAction.lock ::
            (timed_wait_loop q.events.isEmpty (now + msecs) 0 oracle).2 ++
              [QAction.unlock]⟩ := by
        simp [wait_on_queue_timed, hp, hres]
      rw [hw]
      simp [deadlinesIn, deadlinesIn_append, List.all_eq_true]
      exact hd
    · cases w with
      | false =>
        have hw : wait_on_queue_timed q false msecs now oracle =
            ⟨some (true, none, q), QAction.lock ::
              (timed_wait_loop q.events.isEmpty (now + msecs) 0 oracle).2 ++
                [QAction.unlock]⟩ := by
          simp [wait_on_queue_timed, hp, hres]
        rw [hw]
        simp [deadlinesIn, deadlinesIn_append, List.all_eq_true]
        exact hd
      | true =>
        cases hg : (get_next_event_if_any q true).1 with
        | none =>
          have hw : wait_on_queue_timed q true msecs now oracle =
              ⟨some (true, none, (get_next_event_if_any q true).2),
                QAction.lock ::
                  (timed_wait_loop q.events.isEmpty (now + msecs) 0 oracle).2 ++
                    [QAction.unlock]⟩ := by
            simp [wait_on_queue_timed, hp, hres, hg]
          rw [hw]
          simp [deadlinesIn, deadlinesIn_append, List.all_eq_true]
          exact hd
        | some ev =>
          have hw : wait_on_queue_timed q true msecs now oracle =
              ⟨some (true, some (_al_copy_event ev),
                  (get_next_event_if_any q true).2),
                QAction.lock ::
                  (timed_wait_loop q.events.isEmpty (now + msecs) 0 oracle).2 ++
                    [QAction.unlock, QAction.releaseEvent ev]⟩ := by
            simp [wait_on_queue_timed, hp, hres, hg]
          rw [hw]
          simp [deadlinesIn, deadlinesIn_append, List.all_eq_true]
          exact hd

theorem wait_timeout_frame (q : ALLEGRO_EVENT_QUEUE) (w : Bool)
    (msecs now : Nat) (oracle : List Int) :
    match (wait_on_queue_timed q w msecs now oracle).outcome with
    | some (false, c, q') =>
        c = none ∧ q' = q ∧
        releasedEvents (wait_on_queue_timed q w msecs now oracle).trace = []
    | _ => True := by
  have hrel := releasedEvents_timed_wait_loop q.events.isEmpty
    (now + msecs) oracle 0
  rcases hp : (timed_wait_loop q.events.isEmpty (now + msecs) 0 oracle).1
    with _ | result
  · have hw : wait_on_queue_timed q w msecs now oracle =
        ⟨none, QAction.lock ::
          (timed_wait_loop q.events.isEmpty (now + msecs) 0 oracle).2⟩ := by
      simp [wait_on_queue_timed, hp]
    rw [hw]
    exact trivial
  · by_cases hres : result = -1
    · have hw : wait_on_queue_timed q w msecs now oracle =
          ⟨some (false, none, q), QAction.lock ::
            (timed_wait_loop q.events.isEmpty (now + msecs) 0 oracle).2 ++
              [QAction.unlock]⟩ := by
        simp [wait_on_queue_timed, hp, hres]
      rw [hw]
      exact ⟨rfl, rfl, by
        simp [releasedEvents, releasedEvents_append, hrel]⟩
    · cases w with
      | false =>
        have hw : wait_on_queue_timed q false msecs now oracle =
            ⟨some (true, none, q), QAction.lock ::
              (timed_wait_loop q.events.isEmpty (now + msecs) 0 oracle).2 ++
                [QAction.unlock]⟩ := by
          simp [wait_on_queue_timed, hp, hres]
        rw [hw]
        exact trivial
      | true =>
        cases hg : (get_next_event_if_any q true).1 with
        | none =>
          have hw : wait_on_queue_timed q true msecs now oracle =
              ⟨some (true, none, (get_next_event_if_any q true).2),
                QAction.lock ::
                  (timed_wait_loop q.events.isEmpty (now + msecs) 0 oracle).2 ++
                    [QAction.unlock]⟩ := by
            simp [wait_on_queue_timed, hp, hres, hg]
          rw [hw]
          exact trivial
        | some ev =>
          have hw : wait_on_queue_timed q true msecs now oracle =
              ⟨some (true, some (_al_copy_event ev),
                  (get_next_event_if_any q true).2),
                QAction.lock ::
                  (timed_wait_loop q.events.isEmpty (now + msecs) 0 oracle).2 ++
                    [QAction.unlock, QAction.releaseEvent ev]⟩ := by
            simp [wait_on_queue_timed, hp, hres, hg]
          rw [hw]
          exact trivial

/-- Claim C3: wait_on_queue_timed computes its absolute deadline once,
at call time, as now + msecs, and every _al_cond_timedwait call of the
run receives exactly that deadline (it is never recomputed); whenever
the wait reports timeout, it returns false, copies nothing, releases
nothing, and leaves the queue exactly as it was. -/
theorem timed_wait_deadline_once_and_timeout_frame (q : ALLEGRO_EVENT_QUEUE)
    (w : Bool) (msecs now : Nat) (oracle : List Int) :
    ((deadlinesIn (wait_on_queue_timed q w msecs now oracle).trace).all
      (fun d => d == now + msecs) = true) ∧
    (match (wait_on_queue_timed q w msecs now oracle).outcome with
     | some (false, c, q') =>
         c = none ∧ q' = q ∧
         releasedEvents (wait_on_queue_timed q w msecs now oracle).trace = []
     | _ => True) :=
  ⟨wait_deadlines_all q w msecs now oracle,
    wait_timeout_frame q w msecs now oracle⟩

end AllegroEvents
